import Mathlib

/-!
# GHC alias analysis (`ghc-alias-analysis.cpp`)

A shallow embedding of the GHC-specific LLVM alias analysis pass and a
verification of its escape-detection fixed point (`SPEscapes`), its base
resolver (`GetUnderlyingArgumentSCEV`) and its alias query
(`GHCAliasAnalysis::alias`).

Modelling conventions:

* The instructions of a function are numbered; instruction `i` of the body
  defines the value `Value.inst i`.  Formal arguments are `Value.arg`, every
  other value (constants, globals, blocks) is `Value.const`.
* The use list of a value is derived from the operand lists, as in LLVM.  The
  source includes `llvm/IR/ConstantRange.h`, `llvm/IR/InstIterator.h` and
  `llvm/IR/GetElementPtrTypeIterator.h` (lines 13-15), which exist from LLVM 3.5
  on; there a `Value::const_use_iterator` dereferences to a `Use`, and both
  `cast<Instruction>(*UI)` and the conversion in `SpPointers.find(*UI)` give the
  value that is used, not the instruction that uses it.
* `cast<Instruction>` checks its argument only through an assertion.  The
  embedding follows a build without assertions, where the pointer is passed
  on unchanged; with assertions the cast of line 86 stops the program when the
  argument has a use.
* `std::set` is a list used as a set: `insert` adds an element only when it is
  absent, `erase` removes every occurrence, and the iteration order of a
  pointer-keyed set is the order of the addresses, which is an input
  (`Layout`) because it is not determined by the program.
-/

namespace GhcAA

/-! ## IR values and instructions -/

/-- A formal argument, identified by its ordinal position in the argument list. -/
structure Argument where
  ArgNo : Nat
  deriving DecidableEq, Repr

/-- A node of the def-use graph. -/
inductive Value
  | arg (a : Argument)
  | inst (i : Nat)
  | const (c : Nat)
  deriving DecidableEq, Repr

/-- The instruction kinds `SPEscapes` distinguishes, with their operands in
LLVM operand order.  `other` stands for every remaining kind (load, call,
alloca, compare, branch, return, the atomic instructions, ...). -/
inductive Instruction
  | store (ValueOperand PointerOperand : Value)
  | gep (PointerOperand : Value) (Indices : List Value)
  | select (Condition TrueValue FalseValue : Value)
  | phi (Incoming : List Value)
  | binop (LHS RHS : Value)
  | cast (Op : Value)
  | other (Ops : List Value)
  deriving DecidableEq, Repr

/-- The operand list `op_begin() .. op_end()` of an instruction. -/
def Instruction.operands : Instruction → List Value
  | .store v p => [v, p]
  | .gep p idx => p :: idx
  | .select c t f => [c, t, f]
  | .phi vs => vs
  | .binop a b => [a, b]
  | .cast a => [a]
  | .other ops => ops

/-- The calling convention identifier `CallingConv::GHC` of LLVM. -/
def CallingConv.GHC : Nat := 10

/-- A function: its calling convention, the number of its formal arguments and
its instructions. -/
structure Function where
  CallingConv : Nat
  NumArgs : Nat
  body : List Instruction
  deriving Repr

/-- The argument list of a function, in order. -/
def Function.getArgumentList (F : Function) : List Argument :=
  (List.range F.NumArgs).map Argument.mk

/-- The users of a value: the instructions that have it among their operands. -/
def Function.uses (F : Function) (V : Value) : List Nat :=
  (List.range F.body.length).filter fun i =>
    match F.body[i]? with
    | some I => decide (V ∈ I.operands)
    | none => false

/-- The instruction a pointer of type `const Instruction*` refers to, as the
`dyn_cast` and `isa` tests of the loop see it: nothing when the pointer refers
to a value that is not an instruction of the function. -/
def Function.getInstruction (F : Function) : Value → Option Instruction
  | .inst i => F.body[i]?
  | _ => none

/-- One entry of a use list: the value that is used (`Use::get()`) and the
instruction that uses it (`Use::getUser()`). -/
structure Use where
  Val : Value
  User : Nat
  deriving DecidableEq, Repr

/-- The value `Use::get()`, which is also what `Use::operator Value*()` gives. -/
def Use.get (U : Use) : Value := U.Val

/-- The call `cast<Instruction>(*UI)` for a use: the cast simplifies a `Use` to
the used value and returns that pointer. -/
def castInstruction (U : Use) : Value := U.get

/-- The orders the program does not determine: the address of each value
(a `std::set` of pointers is iterated by address) and the order in which a use
list enumerates the users of a value (possibly with repetitions). -/
structure Layout where
  addr : Value → Nat
  useOrder : Value → List Nat → List Nat
  useOrder_mem : ∀ V l x, x ∈ useOrder V l ↔ x ∈ l

/-- The layout in which addresses follow instruction numbers, with arguments
and other values after the instructions, and use lists are enumerated in
instruction order. -/
def Layout.canonical : Layout where
  addr := fun V =>
    match V with
    | .inst i => i
    | .arg A => 1000 + A.ArgNo
    | .const c => 2000 + c
  useOrder := fun _ l => l
  useOrder_mem := fun _ _ _ => Iff.rfl

/-- The enumeration `use_begin() .. use_end()` of the uses of a value: one
`Use` of `V` for each user. -/
def Layout.useList (H : Layout) (F : Function) (V : Value) : List Use :=
  (H.useOrder V (F.uses V)).map fun U => ⟨V, U⟩

/-! ## Escape detection -/

/-- The function `SomeOperandIsSPPointer` (lines 66-74): some operand of the
instruction is in the set. -/
def SomeOperandIsSPPointer (SpPointers : List Value) (I : Instruction) : Bool :=
  I.operands.any fun Op => decide (Op ∈ SpPointers)

/-- The two sets of the fixed point in `SPEscapes`. -/
structure LoopState where
  SpPointers : List Value
  WorkList : List Value
  deriving DecidableEq, Repr

/-- The loop of lines 143-148 over the use list of a new Sp pointer: for each
use, `cast<Instruction>(*UI)` is inserted into the work list unless
`SpPointers.find(*UI)` finds the use, converted to a value, in `SpPointers`. -/
def addUses (SpPointers : List Value) (Uses : List Use) (WorkList : List Value) : List Value :=
  Uses.foldl
    (fun WL UI => if UI.get ∈ SpPointers then WL else WL.insert (castInstruction UI)) WorkList

/-- One iteration of the `while` loop of `SPEscapes` for the element `I` taken
from the work list.  `none` is `return true`; `some s` is the state at the next
evaluation of the loop condition (after `continue` or after the fall-through
that records a new Sp pointer). -/
def loopBody (H : Layout) (F : Function) (s : LoopState) (I : Value) : Option LoopState :=
  let WorkList := s.WorkList.filter (fun J => J != I)
  let continue_ : Option LoopState := some ⟨s.SpPointers, WorkList⟩
  let fallThrough : Option LoopState :=
    let SpPointers := s.SpPointers.insert I
    some ⟨SpPointers, addUses SpPointers (H.useList F I) WorkList⟩
  match F.getInstruction I with
  | some (.store ValueOperand _) =>
    if ValueOperand ∈ s.SpPointers then none else continue_
  | some (.gep PointerOperand _) =>
    if PointerOperand ∉ s.SpPointers then continue_ else fallThrough
  | some (.select _ TrueValue FalseValue) =>
    if TrueValue ∉ s.SpPointers ∧ FalseValue ∉ s.SpPointers then continue_ else fallThrough
  | some (.phi vs) =>
    if !SomeOperandIsSPPointer s.SpPointers (.phi vs) then continue_ else fallThrough
  | some (.binop a b) =>
    if !SomeOperandIsSPPointer s.SpPointers (.binop a b) then continue_ else fallThrough
  | some (.cast a) =>
    if !SomeOperandIsSPPointer s.SpPointers (.cast a) then continue_ else fallThrough
  | some (.other _) => continue_
  | none => continue_

/-- The state before the first evaluation of the loop condition (lines 80-86). -/
def initState (H : Layout) (F : Function) (sp_arg : Argument) : LoopState :=
  ⟨([] : List Value).insert (Value.arg sp_arg),
   (H.useList F (Value.arg sp_arg)).foldl (fun WL UI => WL.insert (castInstruction UI)) []⟩

/-- The element `*WorkList.begin()`: the member with the least address, if the
work list is not empty. -/
def WorkListBegin (H : Layout) (WorkList : List Value) : Option Value :=
  WorkList.argmin H.addr

/-- The invariant stated at line 79: no instruction in the work list defines a
value that is already in `SpPointers`. -/
def LoopState.Disjoint (s : LoopState) : Prop :=
  ∀ I ∈ s.WorkList, I ∉ s.SpPointers

/-- The number of instructions of the function not yet in `SpPointers`. -/
def notInSpPointers (F : Function) (s : LoopState) : Nat :=
  ((Finset.range F.body.length).filter fun i => Value.inst i ∉ s.SpPointers).card

/-- The taint rule of the specification for one instruction, relative to a set
`S` of values: a GEP propagates from its base pointer, a select from its true
or false value, a phi, binary operator or cast from any operand; no other
instruction propagates. -/
def Propagates (S : Value → Prop) : Instruction → Prop
  | .gep PointerOperand _ => S PointerOperand
  | .select _ TrueValue FalseValue => S TrueValue ∨ S FalseValue
  | .phi vs => ∃ v ∈ vs, S v
  | .binop a b => S a ∨ S b
  | .cast a => S a
  | .store _ _ => False
  | .other _ => False

/-- The escape rule of the specification: the instruction is a store whose
stored value (not its address) is in `S`. -/
def StoresFrom (S : Value → Prop) : Instruction → Prop
  | .store ValueOperand _ => S ValueOperand
  | _ => False

/-- The values derived from the candidate argument: the least set containing
the candidate and closed under the taint rule of the specification. -/
inductive Derived (F : Function) (sp_arg : Argument) : Value → Prop
  | candidate : Derived F sp_arg (Value.arg sp_arg)
  | gep {i p idx} : F.body[i]? = some (.gep p idx) → Derived F sp_arg p →
      Derived F sp_arg (Value.inst i)
  | selectTrue {i c t f} : F.body[i]? = some (.select c t f) → Derived F sp_arg t →
      Derived F sp_arg (Value.inst i)
  | selectFalse {i c t f} : F.body[i]? = some (.select c t f) → Derived F sp_arg f →
      Derived F sp_arg (Value.inst i)
  | phi {i vs v} : F.body[i]? = some (.phi vs) → v ∈ vs → Derived F sp_arg v →
      Derived F sp_arg (Value.inst i)
  | binopLeft {i a b} : F.body[i]? = some (.binop a b) → Derived F sp_arg a →
      Derived F sp_arg (Value.inst i)
  | binopRight {i a b} : F.body[i]? = some (.binop a b) → Derived F sp_arg b →
      Derived F sp_arg (Value.inst i)
  | cast {i a} : F.body[i]? = some (.cast a) → Derived F sp_arg a →
      Derived F sp_arg (Value.inst i)

/-- The state after `continue`. -/
def continueState (s : LoopState) (I : Value) : LoopState :=
  ⟨s.SpPointers, s.WorkList.filter (fun J => J != I)⟩

/-- The state after the fall-through that records `I` as a new Sp pointer. -/
def taintState (H : Layout) (F : Function) (s : LoopState) (I : Value) : LoopState :=
  ⟨s.SpPointers.insert I,
   addUses (s.SpPointers.insert I) (H.useList F I) (s.WorkList.filter (fun J => J != I))⟩

/-- The termination measure of the work-list loop, ordered lexicographically:
the number of instructions not yet in `SpPointers`, then the work-list members
that are already in `SpPointers` (none when the invariant of line 79 holds),
then the remaining work-list members. -/
def loopMeasure (F : Function) (s : LoopState) : Nat × Nat × Nat :=
  (notInSpPointers F s,
   (s.WorkList.filter fun J => decide (J ∈ s.SpPointers)).length,
   (s.WorkList.filter fun J => decide (J ∉ s.SpPointers)).length)

/-- The same loop with an explicit bound on the number of iterations; `none`
when the bound is reached before the loop exits.  It evaluates by reduction. -/
def loopFuel (H : Layout) (F : Function) : Nat → LoopState → Option Bool
  | 0, _ => none
  | fuel + 1, s =>
    match WorkListBegin H s.WorkList with
    | none => some false
    | some I =>
      match loopBody H F s I with
      | none => some true
      | some t => loopFuel H F fuel t

/-- One iteration of the loop for an arbitrary choice of the element removed
from the work list. -/
def Step (H : Layout) (F : Function) (s t : LoopState) : Prop :=
  ∃ I ∈ s.WorkList, loopBody H F s I = some t

/-- The runs of the loop when the element removed from the work list at each
iteration is chosen freely: `Run H F s b` holds when some sequence of choices
from state `s` makes the loop return `b`. -/
inductive Run (H : Layout) (F : Function) : LoopState → Bool → Prop
  | drained {s : LoopState} : s.WorkList = [] → Run H F s false
  | escape {s : LoopState} {I : Value} : I ∈ s.WorkList → loopBody H F s I = none →
      Run H F s true
  | step {s t : LoopState} {I : Value} {b : Bool} : I ∈ s.WorkList →
      loopBody H F s I = some t → Run H F t b → Run H F s b

/-- Every member of `SpPointers` is derived from the candidate. -/
def Sound (F : Function) (sp_arg : Argument) (s : LoopState) : Prop :=
  ∀ V ∈ s.SpPointers, Derived F sp_arg V

/-- The states a run can be in at an evaluation of the loop condition, when
it started from `s`: `t` is reached after finitely many iterations, each for an
arbitrary element of the work list. -/
def Reaches (H : Layout) (F : Function) (s t : LoopState) : Prop :=
  Relation.ReflTransGen (Step H F) s t

/-- The iteration the code performs: the element removed from the work list is
`*WorkList.begin()`. -/
def ExecStep (H : Layout) (F : Function) (s t : LoopState) : Prop :=
  ∃ I, WorkListBegin H s.WorkList = some I ∧ loopBody H F s I = some t

/-- The kinds of instruction whose branch in the loop can fall through to
line 142: GEP, select, phi, binary operator and cast. -/
def Instruction.isSpPointerKind : Instruction → Bool
  | .gep _ _ => true
  | .select _ _ _ => true
  | .phi _ => true
  | .binop _ _ => true
  | .cast _ => true
  | .store _ _ => false
  | .other _ => false

/-! ## Base resolution and the alias query -/

/-- The symbolic forms of the scalar-evolution canonicalizer.  An add
recurrence lists its start and then its steps; `castExpr` stands for
truncation and the two extensions, `maxExpr` for the signed and unsigned
maximum. -/
inductive SCEV
  | constant (c : Int)
  | castExpr (Op : SCEV)
  | addExpr (Ops : List SCEV)
  | mulExpr (Ops : List SCEV)
  | udivExpr (LHS RHS : SCEV)
  | addRecExpr (Start : SCEV) (Steps : List SCEV)
  | maxExpr (Ops : List SCEV)
  | unknown (V : Value)
  | couldNotCompute

mutual
/-- The function `GetUnderlyingArgumentSCEV(S)` (lines 201-219).  The parameter `isPointerTy`
is `isa<PointerType>(S->getType())`, which belongs to the canonicalizer. -/
def GetUnderlyingArgumentSCEV (isPointerTy : SCEV → Bool) : SCEV → Option Argument
  | .addRecExpr Start _ => GetUnderlyingArgumentSCEV isPointerTy Start
  | .addExpr Ops => GetUnderlyingArgumentLast isPointerTy Ops
  | .unknown (.arg A) => some A
  | _ => none
/-- The `SCEVAddExpr` branch: walk to the operand at index
`getNumOperands()-1` and resolve it when it is pointer-typed.  (An add
expression of the canonicalizer is never empty; the empty list resolves to
nothing.) -/
def GetUnderlyingArgumentLast (isPointerTy : SCEV → Bool) : List SCEV → Option Argument
  | [] => none
  | [Last] => if isPointerTy Last then GetUnderlyingArgumentSCEV isPointerTy Last else none
  | _ :: Op :: Ops => GetUnderlyingArgumentLast isPointerTy (Op :: Ops)
end

/-- The answers of an alias query. -/
inductive AliasResult
  | NoAlias
  | MayAlias
  | PartialAlias
  | MustAlias
  deriving DecidableEq, Repr

/-- A memory location: the base pointer of an access and its size. -/
structure Location where
  Ptr : Value
  Size : Nat
  deriving DecidableEq, Repr

/-- The members of the pass object: the canonicalizer (`getSCEV` of the
ScalarEvolution analysis) and the cached Sp argument (`NULL` is `none`). -/
structure GHCAliasAnalysis where
  scev_ : Value → SCEV
  sp_arg_ : Option Argument

/-- The loop of lines 165-175 over the argument list: the argument reached
when the counter is 1 is stored in `sp_arg_`. -/
def findSpArg (sp_arg_ : Option Argument) : List Argument → Nat → Option Argument
  | [], _ => sp_arg_
  | it :: rest, ix => if ix = 1 then some it else findSpArg sp_arg_ rest (ix + 1)

/-- The method `GHCAliasAnalysis::alias(L1, L2)` (lines 221-244).  `AA` is the chained
`AliasAnalysis::alias`, the delegate, which `InitializeAliasAnalysis` (line
156) links at each run. -/
def GHCAliasAnalysis.alias (this : GHCAliasAnalysis) (isPointerTy : SCEV → Bool)
    (AA : Location → Location → AliasResult) (L1 L2 : Location) : AliasResult :=
  match this.sp_arg_ with
  | some sp_arg =>
    let A1 := GetUnderlyingArgumentSCEV isPointerTy (this.scev_ L1.Ptr)
    let A2 := GetUnderlyingArgumentSCEV isPointerTy (this.scev_ L2.Ptr)
    if !(A1 == some sp_arg && A2 == some sp_arg) && (A1 == some sp_arg || A2 == some sp_arg) then
      AliasResult.NoAlias
    else AA L1 L2
  | none => AA L1 L2

/-- The storage of a pass object as `alias` reads it: the two members of the
class and the chained analysis `AA` of its `AliasAnalysis` base.  A pointer
that does not refer to a live object is `none`: `scev_` before a
ScalarEvolution is stored, `AA` before `InitializeAliasAnalysis` (line 156)
links the delegate. -/
structure PassObject where
  scev_ : Option (Value → SCEV)
  sp_arg_ : Option Argument
  AA : Option (Location → Location → AliasResult)

/-- The call `AliasAnalysis::alias(L1, L2)` of line 243: the base class passes
the query to the chained analysis and stops the program (`none`) when none is
linked. -/
def PassObject.chainedAlias (this : PassObject) (L1 L2 : Location) : Option AliasResult :=
  match this.AA with
  | some next => some (next L1 L2)
  | none => none

/-- The method `GHCAliasAnalysis::alias(L1, L2)` (lines 221-244) on the storage
of an object, with the pointers it follows made explicit; `none` is a stopped
program (a call through a pointer that refers to nothing). -/
def PassObject.alias (this : PassObject) (isPointerTy : SCEV → Bool) (L1 L2 : Location) :
    Option AliasResult :=
  match this.sp_arg_ with
  | some sp_arg =>
    match this.scev_ with
    | some scev =>
      let A1 := GetUnderlyingArgumentSCEV isPointerTy (scev L1.Ptr)
      let A2 := GetUnderlyingArgumentSCEV isPointerTy (scev L2.Ptr)
      if !(A1 == some sp_arg && A2 == some sp_arg) && (A1 == some sp_arg || A2 == some sp_arg)
      then some AliasResult.NoAlias
      else this.chainedAlias L1 L2
    | none => none
  | none => this.chainedAlias L1 L2

/-! ## Examples -/

/-- Scenario 1 of the specification: loads from `Sp+0` and `Sp+8` and a load
from an unrelated slot. -/
def scenario1 : Function :=
  ⟨CallingConv.GHC, 2,
   [.gep (.arg ⟨1⟩) [.const 0], .other [.inst 0],
    .gep (.arg ⟨1⟩) [.const 8], .other [.inst 2],
    .other [], .other [.inst 4]]⟩

/-- Scenario 2 of the specification: scenario 1 followed by an allocation and
`store Sp -> SpRef`. -/
def scenario2 : Function :=
  ⟨CallingConv.GHC, 2,
   [.gep (.arg ⟨1⟩) [.const 0], .other [.inst 0],
    .gep (.arg ⟨1⟩) [.const 8], .other [.inst 2],
    .other [], .other [.inst 4],
    .other [], .store (.arg ⟨1⟩) (.inst 6)]⟩

/-- A canonicalizer for the examples: a GEP of the Sp argument is `Sp + c`,
the Sp argument itself and every other value is an unknown leaf. -/
def exampleSE (F : Function) (V : Value) : SCEV :=
  match V with
  | .inst i =>
    match F.body[i]? with
    | some (.gep p [.const c]) => .addExpr [.constant c, .unknown p]
    | _ => .unknown V
  | _ => .unknown V

/-- A typing for the examples: unknown leaves are pointers, constants are not. -/
def exampleIsPointerTy : SCEV → Bool
  | .unknown _ => true
  | _ => false

/-- A state of the two members left by some earlier use of the pass object. -/
def examplePass : GHCAliasAnalysis := ⟨fun _ => .couldNotCompute, some ⟨7⟩⟩

/-- A function with a phi cycle: `3 = phi(2, 1)` and `1 = gep 3, 0` form a
cycle, with `2 = gep Sp` and `0 = cast Sp`. -/
def phiCycle : Function :=
  ⟨CallingConv.GHC, 2,
   [.cast (.arg ⟨1⟩), .gep (.inst 3) [.inst 0], .gep (.arg ⟨1⟩) [.const 0],
    .phi [.inst 2, .inst 1], .other [.inst 1]]⟩

/-- A layout that iterates a work list from the highest instruction number
down and enumerates use lists backwards. -/
def Layout.reversed : Layout where
  addr := fun V => 5000 - Layout.canonical.addr V
  useOrder := fun _ l => l.reverse
  useOrder_mem := fun _ _ _ => List.mem_reverse

/-- The shape of scenario 3 of the specification: `Q = select(cond, Sp, Base)`
and a load from `Q`; nothing is stored. -/
def selectOfSp : Function :=
  ⟨CallingConv.GHC, 2, [.select (.const 0) (.arg ⟨1⟩) (.arg ⟨0⟩), .other [.inst 0]]⟩

/-- A function that loads from Sp and stores the loaded value into a fresh
slot. -/
def loadThenStore : Function :=
  ⟨CallingConv.GHC, 2, [.other [.arg ⟨1⟩], .other [], .store (.inst 0) (.inst 1)]⟩

/-- A function that uses the C calling convention (identifier 0). -/
def notGHC : Function :=
  ⟨0, 2, [.gep (.arg ⟨1⟩) [.const 0], .other [.inst 0]]⟩

/-! ## Termination of the work-list loop

The loop is defined by well-founded recursion; the facts about one iteration
that its termination proof needs come first. -/

theorem mem_useList {H : Layout} {F : Function} {V : Value} {U : Use} :
    U ∈ H.useList F V ↔ U.get = V ∧ U.User ∈ F.uses V := by
  unfold Layout.useList Use.get
  rw [List.mem_map]
  constructor
  · rintro ⟨u, hu, rfl⟩
    exact ⟨rfl, (H.useOrder_mem V _ u).mp hu⟩
  · rintro ⟨hV, hu⟩
    refine ⟨U.User, (H.useOrder_mem V _ _).mpr hu, ?_⟩
    cases U
    simp only at hV
    rw [hV]

theorem addUses_of_mem {SP : List Value} {Uses : List Use} {WL : List Value}
    (h : ∀ U ∈ Uses, U.get ∈ SP) : addUses SP Uses WL = WL := by
  unfold addUses
  induction Uses generalizing WL with
  | nil => rfl
  | cons u us ih =>
    rw [List.foldl_cons, if_pos (h u (List.mem_cons_self _ _))]
    exact ih fun U hU => h U (List.mem_cons_of_mem _ hU)

theorem taintState_workList (H : Layout) (F : Function) (s : LoopState) (I : Value) :
    (taintState H F s I).WorkList = s.WorkList.filter (fun J => J != I) := by
  unfold taintState
  exact addUses_of_mem fun U hU => by
    rw [(mem_useList.mp hU).1]
    exact List.mem_insert_self _ _

theorem getInstruction_some {F : Function} {I : Value} {ins : Instruction}
    (h : F.getInstruction I = some ins) :
    ∃ i, I = Value.inst i ∧ F.body[i]? = some ins ∧ i < F.body.length := by
  cases I with
  | arg A => cases h
  | const c => cases h
  | inst i =>
    refine ⟨i, rfl, h, ?_⟩
    by_contra hge
    have hn : F.body[i]? = none := List.getElem?_eq_none (Nat.le_of_not_lt hge)
    rw [Function.getInstruction, hn] at h
    cases h

theorem someOperandIsSPPointer_iff {SP : List Value} {I : Instruction} :
    SomeOperandIsSPPointer SP I = true ↔ ∃ v ∈ I.operands, v ∈ SP := by
  simp [SomeOperandIsSPPointer]

theorem loopBody_none_iff {H : Layout} {F : Function} {s : LoopState} {I : Value} :
    loopBody H F s I = none ↔
      ∃ ins, F.getInstruction I = some ins ∧ StoresFrom (· ∈ s.SpPointers) ins := by
  unfold loopBody
  dsimp only
  constructor
  · intro h
    split at h <;> (try split at h) <;> (try cases h)
    all_goals exact ⟨_, by assumption, by simpa [StoresFrom]⟩
  · rintro ⟨ins, hins, hst⟩
    cases ins <;> simp_all [StoresFrom]

theorem loopBody_some {H : Layout} {F : Function} {s t : LoopState} {I : Value}
    (h : loopBody H F s I = some t) :
    (t = continueState s I ∧
        ∀ ins, F.getInstruction I = some ins →
          ¬ Propagates (· ∈ s.SpPointers) ins ∧ ¬ StoresFrom (· ∈ s.SpPointers) ins) ∨
    (t = taintState H F s I ∧
        ∃ ins, F.getInstruction I = some ins ∧ Propagates (· ∈ s.SpPointers) ins) := by
  unfold loopBody at h
  dsimp only at h
  cases hb : F.getInstruction I with
  | none =>
    rw [hb] at h
    cases h
    exact Or.inl ⟨rfl, fun ins hins => by cases hins⟩
  | some ins =>
    rw [hb] at h
    cases ins with
    | store v p =>
      dsimp only at h
      split at h
      · cases h
      · cases h
        refine Or.inl ⟨rfl, fun ins hins => ?_⟩
        cases hins
        simpa [Propagates, StoresFrom]
    | gep p idx =>
      dsimp only at h
      split at h
      · cases h
        refine Or.inl ⟨rfl, fun ins hins => ?_⟩
        cases hins
        simpa [Propagates, StoresFrom]
      · cases h
        refine Or.inr ⟨rfl, _, rfl, ?_⟩
        simpa [Propagates] using ‹¬ p ∉ s.SpPointers›
    | select c a b =>
      dsimp only at h
      split at h
      · cases h
        refine Or.inl ⟨rfl, fun ins hins => ?_⟩
        cases hins
        simpa [Propagates, StoresFrom]
      · cases h
        refine Or.inr ⟨rfl, _, rfl, ?_⟩
        rename_i hn
        simp only [Propagates]
        tauto
    | phi vs =>
      dsimp only at h
      split at h
      · cases h
        refine Or.inl ⟨rfl, fun ins hins => ?_⟩
        cases hins
        rename_i hn
        simpa [Propagates, StoresFrom, SomeOperandIsSPPointer, Instruction.operands] using hn
      · cases h
        refine Or.inr ⟨rfl, _, rfl, ?_⟩
        rename_i hn
        simpa [Propagates, SomeOperandIsSPPointer, Instruction.operands] using hn
    | binop a b =>
      dsimp only at h
      split at h
      · cases h
        refine Or.inl ⟨rfl, fun ins hins => ?_⟩
        cases hins
        rename_i hn
        simpa [Propagates, StoresFrom, SomeOperandIsSPPointer, Instruction.operands] using hn
      · cases h
        refine Or.inr ⟨rfl, _, rfl, ?_⟩
        rename_i hn
        simp only [Propagates]
        simp only [SomeOperandIsSPPointer, Instruction.operands, List.any_cons, List.any_nil,
          Bool.or_false, Bool.not_eq_true', Bool.or_eq_false_iff, decide_eq_false_iff_not,
          not_and, Bool.not_eq_true, Bool.not_eq_false, Bool.or_eq_true, decide_eq_true_eq] at hn
        tauto
    | cast a =>
      dsimp only at h
      split at h
      · cases h
        refine Or.inl ⟨rfl, fun ins hins => ?_⟩
        cases hins
        rename_i hn
        simpa [Propagates, StoresFrom, SomeOperandIsSPPointer, Instruction.operands] using hn
      · cases h
        refine Or.inr ⟨rfl, _, rfl, ?_⟩
        rename_i hn
        simpa [Propagates, SomeOperandIsSPPointer, Instruction.operands] using hn
    | other ops =>
      dsimp only at h
      cases h
      refine Or.inl ⟨rfl, fun ins hins => ?_⟩
      cases hins
      simp [Propagates, StoresFrom]

theorem filter_erase_of_false {WL : List Value} {I : Value} {p : Value → Bool} (hp : p I = false) :
    (WL.filter (fun J => J != I)).filter p = WL.filter p := by
  rw [List.filter_filter]
  apply List.filter_congr
  intro x _
  by_cases hx : x = I
  · subst hx; simp [hp]
  · simp [hx]

theorem length_filter_erase_lt {WL : List Value} {I : Value} {p : Value → Bool} (hI : I ∈ WL)
    (hp : p I = true) :
    ((WL.filter (fun J => J != I)).filter p).length < (WL.filter p).length := by
  have h : (WL.filter (fun J => J != I)).filter p = (WL.filter p).filter (fun J => J != I) := by
    rw [List.filter_filter, List.filter_filter]
    apply List.filter_congr
    intro x _
    exact Bool.and_comm _ _
  rw [h, List.length_filter_lt_length_iff_exists]
  exact ⟨I, List.mem_filter.mpr ⟨hI, hp⟩, by simp⟩

theorem notInSpPointers_insert_lt {F : Function} {SP : List Value} {WL WL2 : List Value} {I : Nat}
    (hI : I < F.body.length) (hn : Value.inst I ∉ SP) :
    notInSpPointers F ⟨SP.insert (Value.inst I), WL2⟩ < notInSpPointers F ⟨SP, WL⟩ := by
  unfold notInSpPointers
  apply Finset.card_lt_card
  rw [Finset.ssubset_iff_of_subset]
  · exact ⟨I, by simp [hI, hn], by simp⟩
  · intro x hx
    simp only [Finset.mem_filter, Finset.mem_range, List.mem_insert_iff, not_or] at hx ⊢
    exact ⟨hx.1, hx.2.2⟩

theorem loopBody_measure {H : Layout} {F : Function} {s t : LoopState} {I : Value}
    (hI : I ∈ s.WorkList) (hb : loopBody H F s I = some t) :
    Prod.Lex (· < ·) (Prod.Lex (· < ·) (· < ·)) (loopMeasure F t) (loopMeasure F s) := by
  rcases loopBody_some hb with ⟨rfl, _⟩ | ⟨rfl, ins, hins, _⟩
  · by_cases hm : I ∈ s.SpPointers
    · apply Prod.Lex.right
      apply Prod.Lex.left
      exact length_filter_erase_lt hI (by simpa using hm)
    · apply Prod.Lex.right
      have h2 : (List.filter (fun J => decide (J ∈ s.SpPointers))
          (continueState s I).WorkList).length =
          (List.filter (fun J => decide (J ∈ s.SpPointers)) s.WorkList).length := by
        unfold continueState
        rw [filter_erase_of_false (by simpa using hm)]
      show Prod.Lex _ _ (_, _) (_, _)
      simp only [continueState] at h2 ⊢
      rw [h2]
      apply Prod.Lex.right
      exact length_filter_erase_lt hI (by simpa using hm)
  · by_cases hm : I ∈ s.SpPointers
    · have hSP : (taintState H F s I).SpPointers = s.SpPointers := by
        simp [taintState, List.insert_of_mem hm]
      have h1 : notInSpPointers F (taintState H F s I) = notInSpPointers F s := by
        unfold notInSpPointers
        rw [hSP]
      unfold loopMeasure
      rw [h1]
      apply Prod.Lex.right
      apply Prod.Lex.left
      rw [hSP, taintState_workList]
      exact length_filter_erase_lt hI (by simpa using hm)
    · apply Prod.Lex.left
      obtain ⟨i, rfl, _, hlt⟩ := getInstruction_some hins
      exact notInSpPointers_insert_lt hlt hm

/-! ### The loop -/

/-- The `while` loop of `SPEscapes` (lines 88-151): take the first element of
the work list, run one iteration, and repeat until the work list is empty
(`return false`) or an escape is found (`return true`). -/
def loop (H : Layout) (F : Function) (s : LoopState) : Bool :=
  match hI : WorkListBegin H s.WorkList with
  | none => false
  | some I =>
    match hb : loopBody H F s I with
    | none => true
    | some t => loop H F t
termination_by loopMeasure F s
decreasing_by
  exact loopBody_measure (List.argmin_mem hI) hb

/-- The function `SPEscapes(F, sp_arg)` (lines 76-152): the loop, started from
the initial state. -/
def SPEscapes (H : Layout) (F : Function) (sp_arg : Argument) : Bool :=
  loop H F (initState H F sp_arg)

/-- The method `GHCAliasAnalysis::runOnFunction(F)` (lines 154-198), as the new state of
the pass object; `SE` is the ScalarEvolution analysis of `F` that the pass
manager hands out.  (The C++ function returns `false`: the IR is unchanged.) -/
def GHCAliasAnalysis.runOnFunction (this : GHCAliasAnalysis) (H : Layout) (SE : Value → SCEV)
    (F : Function) : GHCAliasAnalysis :=
  let this : GHCAliasAnalysis := { this with scev_ := SE }
  let this : GHCAliasAnalysis := { this with sp_arg_ := none }
  if F.CallingConv = CallingConv.GHC then
    let this : GHCAliasAnalysis :=
      { this with sp_arg_ := findSpArg this.sp_arg_ F.getArgumentList 0 }
    match this.sp_arg_ with
    | some sp_arg => if SPEscapes H F sp_arg then { this with sp_arg_ := none } else this
    | none => this
  else this

/-! ## Runs of the loop -/

theorem loop_eq (H : Layout) (F : Function) (s : LoopState) :
    loop H F s =
      match WorkListBegin H s.WorkList with
      | none => false
      | some I =>
        match loopBody H F s I with
        | none => true
        | some t => loop H F t := by
  rw [loop]
  split
  · rename_i h
    simp [h]
  · rename_i I h
    simp only [h]
    split <;> rename_i h2 <;> simp [h2]

theorem loop_of_loopFuel {H : Layout} {F : Function} {n : Nat} {s : LoopState} {b : Bool}
    (h : loopFuel H F n s = some b) : loop H F s = b := by
  induction n generalizing s with
  | zero => cases h
  | succ n ih =>
    rw [loop_eq]
    unfold loopFuel at h
    cases hI : WorkListBegin H s.WorkList with
    | none =>
      rw [hI] at h
      simpa using h
    | some I =>
      rw [hI] at h
      dsimp only at h ⊢
      cases hb : loopBody H F s I with
      | none =>
        rw [hb] at h
        simpa using h
      | some t =>
        rw [hb] at h
        exact ih h

theorem loop_run (H : Layout) (F : Function) (s : LoopState) : Run H F s (loop H F s) := by
  have wf : WellFounded (InvImage (Prod.Lex (· < ·) (Prod.Lex (· < ·) (· < ·))) (loopMeasure F)) :=
    InvImage.wf _ (WellFounded.prod_lex Nat.lt_wfRel.wf (WellFounded.prod_lex Nat.lt_wfRel.wf Nat.lt_wfRel.wf))
  induction s using wf.induction with
  | _ s ih =>
    rw [loop_eq]
    cases hI : WorkListBegin H s.WorkList with
    | none =>
      exact Run.drained (List.argmin_eq_none.mp hI)
    | some I =>
      have hmem : I ∈ s.WorkList := List.argmin_mem hI
      dsimp only
      cases hb : loopBody H F s I with
      | none => exact Run.escape hmem hb
      | some t => exact Run.step hmem hb (ih t (loopBody_measure hmem hb))

/-! ### What the fixed point records -/

theorem propagates_mono {S T : Value → Prop} (h : ∀ v, S v → T v) {ins : Instruction}
    (hp : Propagates S ins) : Propagates T ins := by
  cases ins with
  | store v p => exact hp
  | gep p idx => exact h _ hp
  | select c a b => exact hp.imp (h _) (h _)
  | phi vs =>
    obtain ⟨v, hv, hs⟩ := hp
    exact ⟨v, hv, h _ hs⟩
  | binop a b => exact hp.imp (h _) (h _)
  | cast a => exact h _ hp
  | other ops => exact hp

theorem derived_of_propagates {F : Function} {sp_arg : Argument} {i : Nat} {ins : Instruction}
    (hi : F.body[i]? = some ins) (hp : Propagates (Derived F sp_arg) ins) :
    Derived F sp_arg (Value.inst i) := by
  cases ins with
  | store v p => exact hp.elim
  | gep p idx => exact Derived.gep hi hp
  | select c a b =>
    rcases hp with hp | hp
    · exact Derived.selectTrue hi hp
    · exact Derived.selectFalse hi hp
  | phi vs =>
    obtain ⟨v, hv, hs⟩ := hp
    exact Derived.phi hi hv hs
  | binop a b =>
    rcases hp with hp | hp
    · exact Derived.binopLeft hi hp
    · exact Derived.binopRight hi hp
  | cast a => exact Derived.cast hi hp
  | other ops => exact hp.elim

theorem propagates_of_derived {F : Function} {sp_arg : Argument} {i : Nat}
    (hd : Derived F sp_arg (Value.inst i)) :
    ∃ ins, F.body[i]? = some ins ∧ Propagates (Derived F sp_arg) ins := by
  cases hd with
  | gep hi hp => exact ⟨_, hi, hp⟩
  | selectTrue hi hp => exact ⟨_, hi, Or.inl hp⟩
  | selectFalse hi hp => exact ⟨_, hi, Or.inr hp⟩
  | phi hi hv hp => exact ⟨_, hi, _, hv, hp⟩
  | binopLeft hi hp => exact ⟨_, hi, Or.inl hp⟩
  | binopRight hi hp => exact ⟨_, hi, Or.inr hp⟩
  | cast hi hp => exact ⟨_, hi, hp⟩

theorem initState_sound (H : Layout) (F : Function) (sp_arg : Argument) :
    Sound F sp_arg (initState H F sp_arg) := by
  intro V hV
  simp only [initState, List.mem_insert_iff, List.not_mem_nil, or_false] at hV
  subst hV
  exact Derived.candidate

theorem loopBody_sound {H : Layout} {F : Function} {sp_arg : Argument} {s t : LoopState}
    {I : Value} (hs : Sound F sp_arg s) (hb : loopBody H F s I = some t) : Sound F sp_arg t := by
  rcases loopBody_some hb with ⟨rfl, _⟩ | ⟨rfl, ins, hins, hp⟩
  · exact hs
  · intro V hV
    simp only [taintState, List.mem_insert_iff] at hV
    rcases hV with rfl | hV
    · obtain ⟨i, rfl, hi, _⟩ := getInstruction_some hins
      exact derived_of_propagates hi (propagates_mono hs hp)
    · exact hs V hV

theorem foldl_insert_cast {V : Value} (Uses : List Use) (WL : List Value)
    (h : ∀ U ∈ Uses, castInstruction U = V) :
    Uses.foldl (fun WL UI => WL.insert (castInstruction UI)) WL =
      if Uses = [] then WL else WL.insert V := by
  induction Uses generalizing WL with
  | nil => rfl
  | cons u us ih =>
    rw [List.foldl_cons, h u (List.mem_cons_self _ _),
      ih _ fun U hU => h U (List.mem_cons_of_mem _ hU)]
    by_cases hus : us = []
    · simp [hus]
    · simp [hus, List.insert_of_mem (List.mem_insert_self V WL)]

theorem initState_SpPointers (H : Layout) (F : Function) (sp_arg : Argument) :
    (initState H F sp_arg).SpPointers = [Value.arg sp_arg] := rfl

theorem initState_workList (H : Layout) (F : Function) (sp_arg : Argument) :
    (initState H F sp_arg).WorkList =
      if H.useList F (Value.arg sp_arg) = [] then [] else [Value.arg sp_arg] := by
  unfold initState
  simp only
  rw [foldl_insert_cast (V := Value.arg sp_arg) _ _ fun U hU => (mem_useList.mp hU).1]
  rfl

theorem useList_eq_nil_iff (H : Layout) (F : Function) (V : Value) :
    H.useList F V = [] ↔ F.uses V = [] := by
  unfold Layout.useList
  rw [List.map_eq_nil_iff]
  constructor
  · intro h
    apply List.eq_nil_iff_forall_not_mem.mpr
    intro x hx
    have := (H.useOrder_mem V _ x).mpr hx
    rw [h] at this
    cases this
  · intro h
    apply List.eq_nil_iff_forall_not_mem.mpr
    intro x hx
    have := (H.useOrder_mem V _ x).mp hx
    rw [h] at this
    cases this

theorem initState_workList_cases (H : Layout) (F : Function) (sp_arg : Argument) :
    (initState H F sp_arg).WorkList = [] ∨
      (initState H F sp_arg).WorkList = [Value.arg sp_arg] := by
  rw [initState_workList]
  split
  · exact Or.inl rfl
  · exact Or.inr rfl

theorem loopBody_of_not_instruction (H : Layout) (F : Function) (s : LoopState) (I : Value)
    (h : F.getInstruction I = none) : loopBody H F s I = some (continueState s I) := by
  unfold loopBody
  rw [h]
  rfl

/-- From a state whose work list holds at most the argument itself, every
run returns false and passes only through states with the same `SpPointers`. -/
theorem run_of_arg_workList {H : Layout} {F : Function} {A : Argument} {s : LoopState}
    {b : Bool} (hr : Run H F s b)
    (hw : s.WorkList = [] ∨ s.WorkList = [Value.arg A]) : b = false := by
  induction hr with
  | drained _ => rfl
  | escape hI hb =>
    rcases hw with hw | hw
    · rw [hw] at hI
      cases hI
    · rw [hw, List.mem_singleton] at hI
      subst hI
      rw [loopBody_of_not_instruction H F _ (Value.arg A) rfl] at hb
      cases hb
  | step hI hb _ ih =>
    rcases hw with hw | hw
    · rw [hw] at hI
      cases hI
    · rw [hw, List.mem_singleton] at hI
      subst hI
      rw [loopBody_of_not_instruction H F _ (Value.arg A) rfl] at hb
      cases hb
      exact ih (Or.inl (by simp [continueState, hw]))

theorem reaches_init {H : Layout} {F : Function} {sp_arg : Argument} {t : LoopState}
    (hr : Relation.ReflTransGen (Step H F) (initState H F sp_arg) t) :
    t.SpPointers = [Value.arg sp_arg] ∧
      (t.WorkList = [] ∨ t.WorkList = [Value.arg sp_arg]) := by
  induction hr with
  | refl => exact ⟨initState_SpPointers H F sp_arg, initState_workList_cases H F sp_arg⟩
  | tail _ hbc ih =>
    obtain ⟨I, hI, hb⟩ := hbc
    rcases ih.2 with hw | hw
    · rw [hw] at hI
      cases hI
    · rw [hw, List.mem_singleton] at hI
      subst hI
      rw [loopBody_of_not_instruction H F _ (Value.arg sp_arg) rfl] at hb
      cases hb
      exact ⟨ih.1, Or.inl (by simp [continueState, hw])⟩

/-! ## Lemmas about the pass -/

theorem SPEscapes_of_loopFuel {H : Layout} {F : Function} {sp_arg : Argument} {n : Nat} {b : Bool}
    (h : loopFuel H F n (initState H F sp_arg) = some b) : SPEscapes H F sp_arg = b :=
  loop_of_loopFuel h

theorem SPEscapes_run (H : Layout) (F : Function) (sp_arg : Argument) :
    Run H F (initState H F sp_arg) (SPEscapes H F sp_arg) :=
  loop_run H F _

theorem SPEscapes_eq_false (H : Layout) (F : Function) (sp_arg : Argument) :
    SPEscapes H F sp_arg = false :=
  run_of_arg_workList (A := sp_arg) (SPEscapes_run H F sp_arg)
    (initState_workList_cases H F sp_arg)

theorem loopBody_disjoint {H : Layout} {F : Function} {s t : LoopState} {I : Value}
    (hd : s.Disjoint) (hb : loopBody H F s I = some t) : t.Disjoint := by
  rcases loopBody_some hb with ⟨rfl, _⟩ | ⟨rfl, _⟩
  · intro J hJ
    exact hd J (List.mem_filter.mp hJ).1
  · intro J hJ
    rw [taintState_workList] at hJ
    have hJ2 := List.mem_filter.mp hJ
    have hne : J ≠ I := by simpa using hJ2.2
    simp only [taintState, List.mem_insert_iff, not_or]
    exact ⟨hne, hd J hJ2.1⟩

theorem loopBody_pair_measure {H : Layout} {F : Function} {s t : LoopState} {I : Value}
    (hd : s.Disjoint) (hI : I ∈ s.WorkList) (hb : loopBody H F s I = some t) :
    Prod.Lex (· < ·) (· < ·) (notInSpPointers F t, t.WorkList.length)
      (notInSpPointers F s, s.WorkList.length) := by
  rcases loopBody_some hb with ⟨rfl, _⟩ | ⟨rfl, ins, hins, _⟩
  · apply Prod.Lex.right
    simp only [continueState]
    rw [List.length_filter_lt_length_iff_exists]
    exact ⟨I, hI, by simp⟩
  · apply Prod.Lex.left
    obtain ⟨i, rfl, _, hlt⟩ := getInstruction_some hins
    exact notInSpPointers_insert_lt hlt (hd _ hI)

theorem loopBody_pair_measure_any {H : Layout} {F : Function} {s t : LoopState} {I : Value}
    (hI : I ∈ s.WorkList) (hb : loopBody H F s I = some t) :
    Prod.Lex (· < ·) (· < ·) (notInSpPointers F t, t.WorkList.length)
      (notInSpPointers F s, s.WorkList.length) := by
  by_cases hm : I ∈ s.SpPointers
  · have hlen : (s.WorkList.filter (fun J => J != I)).length < s.WorkList.length := by
      rw [List.length_filter_lt_length_iff_exists]
      exact ⟨I, hI, by simp⟩
    rcases loopBody_some hb with ⟨rfl, _⟩ | ⟨rfl, _⟩
    · exact Prod.Lex.right _ hlen
    · have hSP : (taintState H F s I).SpPointers = s.SpPointers := by
        simp [taintState, List.insert_of_mem hm]
      have h1 : notInSpPointers F (taintState H F s I) = notInSpPointers F s := by
        unfold notInSpPointers
        rw [hSP]
      rw [h1, taintState_workList]
      exact Prod.Lex.right _ hlen
  · rcases loopBody_some hb with ⟨rfl, _⟩ | ⟨rfl, ins, hins, _⟩
    · apply Prod.Lex.right
      simp only [continueState]
      rw [List.length_filter_lt_length_iff_exists]
      exact ⟨I, hI, by simp⟩
    · apply Prod.Lex.left
      obtain ⟨i, rfl, _, hlt⟩ := getInstruction_some hins
      exact notInSpPointers_insert_lt hlt hm

theorem step_wf (H : Layout) (F : Function) : WellFounded (fun t s => Step H F s t) := by
  have wf : WellFounded (InvImage (Prod.Lex (· < ·) (Prod.Lex (· < ·) (· < ·))) (loopMeasure F)) :=
    InvImage.wf _ (WellFounded.prod_lex Nat.lt_wfRel.wf
      (WellFounded.prod_lex Nat.lt_wfRel.wf Nat.lt_wfRel.wf))
  refine Subrelation.wf ?_ wf
  rintro t s ⟨I, hI, hb⟩
  exact loopBody_measure hI hb

theorem findSpArg_getArgumentList (F : Function) :
    findSpArg none F.getArgumentList 0 = if 2 ≤ F.NumArgs then some ⟨1⟩ else none := by
  unfold Function.getArgumentList
  rcases hn : F.NumArgs with _ | _ | n
  · simp [findSpArg]
  · simp [findSpArg, List.range_succ]
  · rw [List.range_succ_eq_map, List.range_succ_eq_map]
    simp [findSpArg]

theorem getArgumentList_second (F : Function) (h : 2 ≤ F.NumArgs) :
    F.getArgumentList[1]? = some ⟨1⟩ := by
  unfold Function.getArgumentList
  rw [List.getElem?_map, List.getElem?_range (by omega)]
  rfl

theorem runOnFunction_sp_arg (this : GHCAliasAnalysis) (H : Layout) (SE : Value → SCEV)
    (F : Function) :
    (this.runOnFunction H SE F).sp_arg_ =
      if F.CallingConv = CallingConv.GHC ∧ 2 ≤ F.NumArgs ∧ SPEscapes H F ⟨1⟩ = false
      then some ⟨1⟩ else none := by
  unfold GHCAliasAnalysis.runOnFunction
  dsimp only
  rw [findSpArg_getArgumentList]
  by_cases hcc : F.CallingConv = CallingConv.GHC
  · by_cases hn : 2 ≤ F.NumArgs
    · cases he : SPEscapes H F ⟨1⟩ <;> simp [hcc, hn, he]
    · simp [hcc, hn]
  · simp [hcc]

theorem runOnFunction_scev (this : GHCAliasAnalysis) (H : Layout) (SE : Value → SCEV)
    (F : Function) : (this.runOnFunction H SE F).scev_ = SE := by
  unfold GHCAliasAnalysis.runOnFunction
  dsimp only
  split
  · split
    · split <;> rfl
    · rfl
  · rfl

theorem alias_of_none {this : GHCAliasAnalysis} (h : this.sp_arg_ = none)
    (isPointerTy : SCEV → Bool) (AA : Location → Location → AliasResult) (L1 L2 : Location) :
    this.alias isPointerTy AA L1 L2 = AA L1 L2 := by
  unfold GHCAliasAnalysis.alias
  rw [h]

theorem alias_of_some {this : GHCAliasAnalysis} {D : Argument} (h : this.sp_arg_ = some D)
    (isPointerTy : SCEV → Bool) (AA : Location → Location → AliasResult) (L1 L2 : Location) :
    this.alias isPointerTy AA L1 L2 =
      if (GetUnderlyingArgumentSCEV isPointerTy (this.scev_ L1.Ptr) = some D ↔
          ¬ GetUnderlyingArgumentSCEV isPointerTy (this.scev_ L2.Ptr) = some D)
      then AliasResult.NoAlias else AA L1 L2 := by
  unfold GHCAliasAnalysis.alias
  rw [h]
  dsimp only
  by_cases h1 : GetUnderlyingArgumentSCEV isPointerTy (this.scev_ L1.Ptr) = some D <;>
    by_cases h2 : GetUnderlyingArgumentSCEV isPointerTy (this.scev_ L2.Ptr) = some D <;>
    simp [h1, h2]

theorem GetUnderlyingArgumentLast_append (isPointerTy : SCEV → Bool) (Ops : List SCEV)
    (Last : SCEV) :
    GetUnderlyingArgumentLast isPointerTy (Ops ++ [Last]) =
      if isPointerTy Last then GetUnderlyingArgumentSCEV isPointerTy Last else none := by
  induction Ops with
  | nil => simp [GetUnderlyingArgumentLast]
  | cons Op Ops ih =>
    cases Ops with
    | nil => simp [GetUnderlyingArgumentLast]
    | cons Op2 Ops =>
      simp only [List.cons_append] at ih ⊢
      rw [GetUnderlyingArgumentLast]
      exact ih

theorem scenario1_no_escape : SPEscapes Layout.canonical scenario1 ⟨1⟩ = false :=
  SPEscapes_of_loopFuel (n := 10) (by decide)

theorem scenario1_cached :
    (examplePass.runOnFunction Layout.canonical (exampleSE scenario1) scenario1).sp_arg_ =
      some ⟨1⟩ := by
  rw [runOnFunction_sp_arg, if_pos]
  exact ⟨rfl, by decide, scenario1_no_escape⟩

/-! ## Facts about the states a run reaches -/

theorem execStep_step {H : Layout} {F : Function} {s t : LoopState} (h : ExecStep H F s t) :
    Step H F s t := by
  obtain ⟨I, hI, hb⟩ := h
  exact ⟨I, List.argmin_mem hI, hb⟩

theorem loopBody_subset {H : Layout} {F : Function} {s t : LoopState} {I : Value}
    (hb : loopBody H F s I = some t) {V : Value} (hV : V ∈ s.SpPointers) :
    V ∈ t.SpPointers := by
  rcases loopBody_some hb with ⟨rfl, _⟩ | ⟨rfl, _⟩
  · exact hV
  · exact List.mem_insert_iff.mpr (Or.inr hV)

theorem reaches_subset {H : Layout} {F : Function} {s t : LoopState} (h : Reaches H F s t)
    {V : Value} (hV : V ∈ s.SpPointers) : V ∈ t.SpPointers := by
  induction h with
  | refl => exact hV
  | tail _ hbc ih =>
    obtain ⟨I, _, hb⟩ := hbc
    exact loopBody_subset hb ih

theorem reaches_disjoint {H : Layout} {F : Function} {s t : LoopState} (h : Reaches H F s t)
    (hd : s.Disjoint) : t.Disjoint := by
  induction h with
  | refl => exact hd
  | tail _ hbc ih =>
    obtain ⟨I, _, hb⟩ := hbc
    exact loopBody_disjoint ih hb

theorem reaches_sound {H : Layout} {F : Function} {sp_arg : Argument} {s t : LoopState}
    (h : Reaches H F s t) (hs : Sound F sp_arg s) : Sound F sp_arg t := by
  induction h with
  | refl => exact hs
  | tail _ hbc ih =>
    obtain ⟨I, _, hb⟩ := hbc
    exact loopBody_sound ih hb

theorem propagates_kind {S : Value → Prop} {ins : Instruction} (hp : Propagates S ins) :
    ins.isSpPointerKind = true := by
  cases ins <;> first | rfl | exact hp.elim

theorem derived_kind {F : Function} {sp_arg : Argument} {V : Value} (hd : Derived F sp_arg V) :
    V = Value.arg sp_arg ∨
      ∃ (i : Nat) (ins : Instruction),
        V = Value.inst i ∧ F.body[i]? = some ins ∧ ins.isSpPointerKind = true := by
  cases hd with
  | candidate => exact Or.inl rfl
  | gep hi _ => exact Or.inr ⟨_, _, rfl, hi, rfl⟩
  | selectTrue hi _ => exact Or.inr ⟨_, _, rfl, hi, rfl⟩
  | selectFalse hi _ => exact Or.inr ⟨_, _, rfl, hi, rfl⟩
  | phi hi _ _ => exact Or.inr ⟨_, _, rfl, hi, rfl⟩
  | binopLeft hi _ => exact Or.inr ⟨_, _, rfl, hi, rfl⟩
  | binopRight hi _ => exact Or.inr ⟨_, _, rfl, hi, rfl⟩
  | cast hi _ => exact Or.inr ⟨_, _, rfl, hi, rfl⟩

theorem selectOfSp_cached :
    (examplePass.runOnFunction Layout.canonical (exampleSE selectOfSp) selectOfSp).sp_arg_ =
      some ⟨1⟩ := by
  rw [runOnFunction_sp_arg, if_pos]
  exact ⟨rfl, by decide, SPEscapes_eq_false _ _ _⟩

theorem SPEscapes_layout (H H2 : Layout) (F : Function) (sp_arg : Argument) :
    SPEscapes H F sp_arg = SPEscapes H2 F sp_arg :=
  (SPEscapes_eq_false H F sp_arg).trans (SPEscapes_eq_false H2 F sp_arg).symm

theorem runOnFunction_sp_arg_layout (this this2 : GHCAliasAnalysis) (H H2 : Layout)
    (SE SE2 : Value → SCEV) (F : Function) :
    (this.runOnFunction H SE F).sp_arg_ = (this2.runOnFunction H2 SE2 F).sp_arg_ := by
  rw [runOnFunction_sp_arg, runOnFunction_sp_arg, SPEscapes_layout H H2]

theorem alias_both_orders (this : GHCAliasAnalysis) (isPointerTy : SCEV → Bool)
    (L1 L2 : Location) :
    (∀ AA : Location → Location → AliasResult,
        this.alias isPointerTy AA L1 L2 = AliasResult.NoAlias ∧
          this.alias isPointerTy AA L2 L1 = AliasResult.NoAlias) ∨
      ∀ AA : Location → Location → AliasResult,
        this.alias isPointerTy AA L1 L2 = AA L1 L2 ∧ this.alias isPointerTy AA L2 L1 = AA L2 L1 := by
  cases hsp : this.sp_arg_ with
  | none =>
    exact Or.inr fun AA => ⟨alias_of_none hsp isPointerTy AA L1 L2,
      alias_of_none hsp isPointerTy AA L2 L1⟩
  | some D =>
    by_cases hc : (GetUnderlyingArgumentSCEV isPointerTy (this.scev_ L1.Ptr) = some D ↔
        ¬ GetUnderlyingArgumentSCEV isPointerTy (this.scev_ L2.Ptr) = some D)
    · have hc2 : (GetUnderlyingArgumentSCEV isPointerTy (this.scev_ L2.Ptr) = some D ↔
          ¬ GetUnderlyingArgumentSCEV isPointerTy (this.scev_ L1.Ptr) = some D) := by tauto
      left
      intro AA
      rw [alias_of_some hsp, alias_of_some hsp, if_pos hc, if_pos hc2]
      exact ⟨rfl, rfl⟩
    · have hc2 : ¬ (GetUnderlyingArgumentSCEV isPointerTy (this.scev_ L2.Ptr) = some D ↔
          ¬ GetUnderlyingArgumentSCEV isPointerTy (this.scev_ L1.Ptr) = some D) := by tauto
      right
      intro AA
      rw [alias_of_some hsp, alias_of_some hsp, if_neg hc, if_neg hc2]
      exact ⟨rfl, rfl⟩

/-- C1: when the Sp argument `D` is cached after `runOnFunction(F)` (so `F` uses
the GHC convention and `SPEscapes(F, D)` returned false) and exactly one of the
two resolved bases equals `D`, `alias` returns `NoAlias` whatever the delegate
`AA` would answer. -/
theorem alias_NoAlias_of_exactly_one_base (this : GHCAliasAnalysis) (H : Layout)
    (SE : Value → SCEV) (F : Function) (D : Argument) (isPointerTy : SCEV → Bool)
    (AA : Location → Location → AliasResult) (L1 L2 : Location)
    (hD : (this.runOnFunction H SE F).sp_arg_ = some D)
    (hone : (GetUnderlyingArgumentSCEV isPointerTy (SE L1.Ptr) = some D ∧
              GetUnderlyingArgumentSCEV isPointerTy (SE L2.Ptr) ≠ some D) ∨
            (GetUnderlyingArgumentSCEV isPointerTy (SE L1.Ptr) ≠ some D ∧
              GetUnderlyingArgumentSCEV isPointerTy (SE L2.Ptr) = some D)) :
    F.CallingConv = CallingConv.GHC ∧ SPEscapes H F D = false ∧
      (this.runOnFunction H SE F).alias isPointerTy AA L1 L2 = AliasResult.NoAlias := by
  have hsp := runOnFunction_sp_arg this H SE F
  rw [hD] at hsp
  split at hsp
  · rename_i hc
    cases hsp
    refine ⟨hc.1, hc.2.2, ?_⟩
    rw [alias_of_some hD, runOnFunction_scev, if_pos]
    tauto
  · cases hsp

/-- C1, at scenario 1: `L1` is rooted at Sp, `L3` at an unrelated slot, and the
delegate would answer `MustAlias`. -/
theorem alias_NoAlias_of_exactly_one_base_witness :
    (examplePass.runOnFunction Layout.canonical (exampleSE scenario1) scenario1).sp_arg_ =
        some ⟨1⟩ ∧
      scenario1.CallingConv = CallingConv.GHC ∧
      SPEscapes Layout.canonical scenario1 ⟨1⟩ = false ∧
      (examplePass.runOnFunction Layout.canonical (exampleSE scenario1) scenario1).alias
        exampleIsPointerTy (fun _ _ => AliasResult.MustAlias) ⟨.inst 0, 8⟩ ⟨.inst 4, 8⟩ =
          AliasResult.NoAlias :=
  ⟨scenario1_cached,
   alias_NoAlias_of_exactly_one_base examplePass Layout.canonical (exampleSE scenario1) scenario1
     ⟨1⟩ exampleIsPointerTy (fun _ _ => AliasResult.MustAlias) ⟨.inst 0, 8⟩ ⟨.inst 4, 8⟩
     scenario1_cached (Or.inl ⟨by decide, by decide⟩)⟩

/-- C3, at the failing input: `SPEscapes` returns false for every function and
candidate.  In scenario 2 the work list starts as `{Sp}`, because
`cast<Instruction>(*UI)` at line 86 gives the used value and not its user; Sp
is not an instruction, so no branch of the loop applies to it, and the store
of Sp, a derived value, is never visited.  (With assertions enabled the cast
of line 86 stops the program instead.) -/
theorem SPEscapes_false_although_derived_is_stored :
    (∀ (H : Layout) (F : Function) (sp_arg : Argument), SPEscapes H F sp_arg = false) ∧
      (initState Layout.canonical scenario2 ⟨1⟩).WorkList = [Value.arg ⟨1⟩] ∧
      scenario2.getInstruction (Value.arg ⟨1⟩) = none ∧
      ∃ (i : Nat) (ValueOperand PointerOperand : Value),
        scenario2.body[i]? = some (.store ValueOperand PointerOperand) ∧
          Derived scenario2 ⟨1⟩ ValueOperand :=
  ⟨SPEscapes_eq_false, by decide, rfl, 7, .arg ⟨1⟩, .inst 6, rfl, Derived.candidate⟩

/-- C4: two runs of the loop for the same function and candidate return the
same verdict, whatever element each removes from the work list at each
iteration and whatever the address order and the use-list enumeration order
are; in particular `SPEscapes` does not depend on the layout. -/
theorem SPEscapes_order_independent (H H2 : Layout) (F : Function) (sp_arg : Argument)
    (b b2 : Bool) (h : Run H F (initState H F sp_arg) b)
    (h2 : Run H2 F (initState H2 F sp_arg) b2) :
    b = b2 ∧ SPEscapes H F sp_arg = SPEscapes H2 F sp_arg := by
  have e1 : b = false :=
    run_of_arg_workList (A := sp_arg) h (initState_workList_cases H F sp_arg)
  have e2 : b2 = false :=
    run_of_arg_workList (A := sp_arg) h2 (initState_workList_cases H2 F sp_arg)
  exact ⟨e1.trans e2.symm, SPEscapes_layout H H2 F sp_arg⟩

/-- C4, at the phi cycle: the run by ascending addresses and the run by
descending addresses with reversed use lists. -/
theorem SPEscapes_order_independent_witness :
    Run Layout.canonical phiCycle (initState Layout.canonical phiCycle ⟨1⟩) false ∧
      Run Layout.reversed phiCycle (initState Layout.reversed phiCycle ⟨1⟩) false ∧
      SPEscapes Layout.canonical phiCycle ⟨1⟩ = SPEscapes Layout.reversed phiCycle ⟨1⟩ :=
  have e1 : SPEscapes Layout.canonical phiCycle ⟨1⟩ = false :=
    SPEscapes_of_loopFuel (n := 10) (by decide)
  have e2 : SPEscapes Layout.reversed phiCycle ⟨1⟩ = false :=
    SPEscapes_of_loopFuel (n := 10) (by decide)
  have r1 : Run Layout.canonical phiCycle (initState Layout.canonical phiCycle ⟨1⟩) false :=
    e1 ▸ SPEscapes_run Layout.canonical phiCycle ⟨1⟩
  have r2 : Run Layout.reversed phiCycle (initState Layout.reversed phiCycle ⟨1⟩) false :=
    e2 ▸ SPEscapes_run Layout.reversed phiCycle ⟨1⟩
  ⟨r1, r2,
   (SPEscapes_order_independent Layout.canonical Layout.reversed phiCycle ⟨1⟩ false false
     r1 r2).2⟩

/-- C5: the work-list loop terminates.  The relation "one more iteration, for
any element of the work list" is well founded on all loop states, so `loop` is
a total function; each iteration decreases the lexicographic pair (number of
instructions not yet in `SpPointers`, size of the work list), and an iteration
from a state that satisfies the invariant of line 79 leads to a state that
satisfies it. -/
theorem SPEscapes_loop_terminates (H : Layout) (F : Function) :
    WellFounded (fun t s => Step H F s t) ∧
      (∀ s t, Step H F s t →
        Prod.Lex (· < ·) (· < ·) (notInSpPointers F t, t.WorkList.length)
          (notInSpPointers F s, s.WorkList.length)) ∧
      ∀ s t, s.Disjoint → Step H F s t →
        t.Disjoint ∧
          Prod.Lex (· < ·) (· < ·) (notInSpPointers F t, t.WorkList.length)
            (notInSpPointers F s, s.WorkList.length) := by
  refine ⟨step_wf H F, ?_, ?_⟩
  · rintro s t ⟨I, hI, hb⟩
    exact loopBody_pair_measure_any hI hb
  · rintro s t hd ⟨I, hI, hb⟩
    exact ⟨loopBody_disjoint hd hb, loopBody_pair_measure hd hI hb⟩

/-- C5, at the phi cycle: from the state with `SpPointers = {Sp}` and work list
`{0, 2}` the iteration for instruction 0 records it and decreases the measure
from `(5, 2)` to `(4, 1)`. -/
theorem SPEscapes_loop_terminates_witness :
    LoopState.Disjoint ⟨[.arg ⟨1⟩], [.inst 0, .inst 2]⟩ ∧
      Step Layout.canonical phiCycle ⟨[.arg ⟨1⟩], [.inst 0, .inst 2]⟩
        ⟨[.inst 0, .arg ⟨1⟩], [.inst 2]⟩ ∧
      Prod.Lex (· < ·) (· < ·)
        (notInSpPointers phiCycle ⟨[.inst 0, .arg ⟨1⟩], [.inst 2]⟩, 1)
        (notInSpPointers phiCycle ⟨[.arg ⟨1⟩], [.inst 0, .inst 2]⟩, 2) :=
  have hd : LoopState.Disjoint ⟨[.arg ⟨1⟩], [.inst 0, .inst 2]⟩ := by
    intro I hI
    simp only [List.mem_cons, List.mem_singleton, List.not_mem_nil, or_false] at hI ⊢
    rcases hI with rfl | rfl <;> exact fun h => Value.noConfusion h
  have hs : Step Layout.canonical phiCycle ⟨[.arg ⟨1⟩], [.inst 0, .inst 2]⟩
      ⟨[.inst 0, .arg ⟨1⟩], [.inst 2]⟩ := ⟨.inst 0, by decide, by decide⟩
  ⟨hd, hs, ((SPEscapes_loop_terminates Layout.canonical phiCycle).2.2 _ _ hd hs).2⟩

/-- C6: when the Sp argument `D` is cached after `runOnFunction(F)` and the two
resolved bases both equal `D`, or neither equals `D`, `alias` returns the
answer of the delegate `AA`, whatever that answer is. -/
theorem alias_defers_when_both_or_neither (this : GHCAliasAnalysis) (H : Layout)
    (SE : Value → SCEV) (F : Function) (D : Argument) (isPointerTy : SCEV → Bool)
    (AA : Location → Location → AliasResult) (L1 L2 : Location)
    (hD : (this.runOnFunction H SE F).sp_arg_ = some D)
    (hboth : (GetUnderlyingArgumentSCEV isPointerTy (SE L1.Ptr) = some D ∧
              GetUnderlyingArgumentSCEV isPointerTy (SE L2.Ptr) = some D) ∨
            (GetUnderlyingArgumentSCEV isPointerTy (SE L1.Ptr) ≠ some D ∧
              GetUnderlyingArgumentSCEV isPointerTy (SE L2.Ptr) ≠ some D)) :
    (this.runOnFunction H SE F).alias isPointerTy AA L1 L2 = AA L1 L2 := by
  rw [alias_of_some hD, runOnFunction_scev, if_neg]
  tauto

/-- C6, at scenario 1: `L1` and `L2` are both rooted at Sp and the delegate's
`MustAlias` is returned. -/
theorem alias_defers_when_both_or_neither_witness :
    (examplePass.runOnFunction Layout.canonical (exampleSE scenario1) scenario1).sp_arg_ =
        some ⟨1⟩ ∧
      (examplePass.runOnFunction Layout.canonical (exampleSE scenario1) scenario1).alias
        exampleIsPointerTy (fun _ _ => AliasResult.MustAlias) ⟨.inst 0, 8⟩ ⟨.inst 2, 8⟩ =
          AliasResult.MustAlias :=
  ⟨scenario1_cached,
   alias_defers_when_both_or_neither examplePass Layout.canonical (exampleSE scenario1)
     scenario1 ⟨1⟩ exampleIsPointerTy (fun _ _ => AliasResult.MustAlias) ⟨.inst 0, 8⟩
     ⟨.inst 2, 8⟩ scenario1_cached (Or.inl ⟨by decide, by decide⟩)⟩

/-- C7: for a function that does not use the GHC convention, `runOnFunction`
leaves the cached argument absent, every `alias` query returns the delegate's
answer, and the answer is the same for every canonicalizer in `scev_`. -/
theorem alias_defers_when_not_GHC (this : GHCAliasAnalysis) (H : Layout)
    (SE : Value → SCEV) (F : Function) (hcc : F.CallingConv ≠ CallingConv.GHC) :
    (this.runOnFunction H SE F).sp_arg_ = none ∧
      (∀ (isPointerTy : SCEV → Bool) (AA : Location → Location → AliasResult)
        (L1 L2 : Location),
        (this.runOnFunction H SE F).alias isPointerTy AA L1 L2 = AA L1 L2) ∧
      ∀ (scev2 : Value → SCEV) (isPointerTy : SCEV → Bool)
        (AA : Location → Location → AliasResult) (L1 L2 : Location),
        GHCAliasAnalysis.alias ⟨scev2, (this.runOnFunction H SE F).sp_arg_⟩ isPointerTy AA L1 L2 =
          AA L1 L2 := by
  have hsp : (this.runOnFunction H SE F).sp_arg_ = none := by
    rw [runOnFunction_sp_arg, if_neg]
    rintro ⟨h, _⟩
    exact hcc h
  refine ⟨hsp, fun isPointerTy AA L1 L2 => alias_of_none hsp isPointerTy AA L1 L2, ?_⟩
  intro scev2 isPointerTy AA L1 L2
  exact @alias_of_none ⟨scev2, _⟩ hsp isPointerTy AA L1 L2

/-- C7, at scenario 1 compiled with the C calling convention (identifier 0). -/
theorem alias_defers_when_not_GHC_witness :
    (0 : Nat) ≠ CallingConv.GHC ∧
      (examplePass.runOnFunction Layout.canonical (exampleSE scenario1)
        ⟨0, 2, scenario1.body⟩).sp_arg_ = none ∧
      (examplePass.runOnFunction Layout.canonical (exampleSE scenario1)
        ⟨0, 2, scenario1.body⟩).alias exampleIsPointerTy (fun _ _ => AliasResult.MustAlias)
          ⟨.inst 0, 8⟩ ⟨.inst 4, 8⟩ = AliasResult.MustAlias :=
  have h := alias_defers_when_not_GHC examplePass Layout.canonical (exampleSE scenario1)
    ⟨0, 2, scenario1.body⟩ (by decide)
  ⟨by decide, h.1, h.2.1 exampleIsPointerTy (fun _ _ => AliasResult.MustAlias) ⟨.inst 0, 8⟩
    ⟨.inst 4, 8⟩⟩

/-- C8: after `runOnFunction(F)` the cached argument is present if and only if
`F` uses the GHC convention, has at least two formal arguments and
`SPEscapes(F, second argument)` is false; when present it is the argument at
position 1 of the argument list, and the fixed point for it ran to an empty
work list without finding an escape. -/
theorem runOnFunction_sp_arg_present_iff (this : GHCAliasAnalysis) (H : Layout)
    (SE : Value → SCEV) (F : Function) :
    ((this.runOnFunction H SE F).sp_arg_ ≠ none ↔
        F.CallingConv = CallingConv.GHC ∧ 2 ≤ F.NumArgs ∧
          ∃ A, F.getArgumentList[1]? = some A ∧ SPEscapes H F A = false) ∧
      ∀ D, (this.runOnFunction H SE F).sp_arg_ = some D →
        F.getArgumentList[1]? = some D ∧ D.ArgNo = 1 ∧ SPEscapes H F D = false ∧
          Run H F (initState H F D) false := by
  have hsp := runOnFunction_sp_arg this H SE F
  constructor
  · rw [hsp]
    constructor
    · intro h
      split at h
      · rename_i hc
        exact ⟨hc.1, hc.2.1, ⟨1⟩, getArgumentList_second F hc.2.1, hc.2.2⟩
      · exact absurd rfl h
    · rintro ⟨hcc, hn, A, hA, hesc⟩
      rw [getArgumentList_second F hn] at hA
      cases hA
      rw [if_pos ⟨hcc, hn, hesc⟩]
      simp
  · intro D hD
    rw [hD] at hsp
    split at hsp
    · rename_i hc
      cases hsp
      refine ⟨getArgumentList_second F hc.2.1, rfl, hc.2.2, ?_⟩
      have hr := SPEscapes_run H F ⟨1⟩
      rw [hc.2.2] at hr
      exact hr
    · cases hsp

/-- C8, at scenario 1: the cached argument is the second formal. -/
theorem runOnFunction_sp_arg_present_iff_witness :
    (examplePass.runOnFunction Layout.canonical (exampleSE scenario1) scenario1).sp_arg_ =
        some ⟨1⟩ ∧
      scenario1.getArgumentList[1]? = some ⟨1⟩ ∧
      SPEscapes Layout.canonical scenario1 ⟨1⟩ = false :=
  have h := (runOnFunction_sp_arg_present_iff examplePass Layout.canonical
    (exampleSE scenario1) scenario1).2 ⟨1⟩ scenario1_cached
  ⟨scenario1_cached, h.1, h.2.2.1⟩

/-- C9: an add recurrence resolves to whatever its start resolves to, whatever
its steps are; a recurrence whose start is the unknown leaf of an argument
resolves to that argument, also when a step is an argument leaf. -/
theorem GetUnderlyingArgumentSCEV_addRec (isPointerTy : SCEV → Bool) (Start : SCEV)
    (Steps : List SCEV) :
    GetUnderlyingArgumentSCEV isPointerTy (.addRecExpr Start Steps) =
        GetUnderlyingArgumentSCEV isPointerTy Start ∧
      ∀ Sp : Argument,
        GetUnderlyingArgumentSCEV isPointerTy (.addRecExpr (.unknown (.arg Sp)) Steps) =
          some Sp := by
  constructor
  · rw [GetUnderlyingArgumentSCEV]
  · intro Sp
    rw [GetUnderlyingArgumentSCEV, GetUnderlyingArgumentSCEV]

/-- C10: an add expression with a last operand resolves to the resolution of
that operand when it is pointer-typed and to nothing when it is not, whatever
the operands before it are. -/
theorem GetUnderlyingArgumentSCEV_add (isPointerTy : SCEV → Bool) (Ops : List SCEV)
    (Last : SCEV) :
    GetUnderlyingArgumentSCEV isPointerTy (.addExpr (Ops ++ [Last])) =
      if isPointerTy Last then GetUnderlyingArgumentSCEV isPointerTy Last else none := by
  rw [GetUnderlyingArgumentSCEV, GetUnderlyingArgumentLast_append]

/-- C11: an unknown leaf resolves to the value it wraps when that value is an
argument and to nothing when it is any other value (an instruction, a
constant); a form that is neither an add recurrence, an add expression nor an
unknown leaf resolves to nothing. -/
theorem GetUnderlyingArgumentSCEV_leaf_and_other (isPointerTy : SCEV → Bool) :
    (∀ A : Argument, GetUnderlyingArgumentSCEV isPointerTy (.unknown (.arg A)) = some A) ∧
      (∀ V : Value, (∀ A : Argument, V ≠ .arg A) →
        GetUnderlyingArgumentSCEV isPointerTy (.unknown V) = none) ∧
      ∀ S : SCEV, (∀ Start Steps, S ≠ .addRecExpr Start Steps) → (∀ Ops, S ≠ .addExpr Ops) →
        (∀ V, S ≠ .unknown V) → GetUnderlyingArgumentSCEV isPointerTy S = none := by
  refine ⟨fun A => by rw [GetUnderlyingArgumentSCEV], ?_, ?_⟩
  · intro V hV
    cases V with
    | arg A => exact absurd rfl (hV A)
    | inst i => rfl
    | const c => rfl
  · intro S h1 h2 h3
    cases S with
    | constant c => rfl
    | castExpr Op => rfl
    | addExpr Ops => exact absurd rfl (h2 Ops)
    | mulExpr Ops => rfl
    | udivExpr L R => rfl
    | addRecExpr Start Steps => exact absurd rfl (h1 Start Steps)
    | maxExpr Ops => rfl
    | unknown V => exact absurd rfl (h3 V)
    | couldNotCompute => rfl

/-- C11, at the leaf that wraps the select instruction of `selectOfSp` and at
a product of two argument leaves. -/
theorem GetUnderlyingArgumentSCEV_leaf_and_other_witness :
    GetUnderlyingArgumentSCEV exampleIsPointerTy (.unknown (.inst 0)) = none ∧
      GetUnderlyingArgumentSCEV exampleIsPointerTy
        (.mulExpr [.unknown (.arg ⟨1⟩), .unknown (.arg ⟨1⟩)]) = none :=
  ⟨(GetUnderlyingArgumentSCEV_leaf_and_other exampleIsPointerTy).2.1 (.inst 0)
      (fun _ h => Value.noConfusion h),
   (GetUnderlyingArgumentSCEV_leaf_and_other exampleIsPointerTy).2.2
      (.mulExpr [.unknown (.arg ⟨1⟩), .unknown (.arg ⟨1⟩)])
      (fun _ _ h => SCEV.noConfusion h) (fun _ h => SCEV.noConfusion h)
      (fun _ h => SCEV.noConfusion h)⟩

/-- C12: running `runOnFunction(F)` a second time on the same function leaves
the same cached argument as the first run, also when the second run sees
another address order, use-list order or canonicalizer. -/
theorem runOnFunction_twice (this : GHCAliasAnalysis) (H H2 : Layout) (SE SE2 : Value → SCEV)
    (F : Function) :
    ((this.runOnFunction H SE F).runOnFunction H2 SE2 F).sp_arg_ =
      (this.runOnFunction H SE F).sp_arg_ :=
  runOnFunction_sp_arg_layout _ _ H2 H SE2 SE F

/-- C13, counterexample: in `selectOfSp` the argument Sp is cached as
non-escaping, Sp and the select `Q = select(cond, Sp, Base)` are both derived
from Sp, the canonicalizer gives an unknown leaf for each, and `alias(Sp, Q)`
returns `NoAlias` although the delegate answers `MustAlias`. -/
theorem alias_of_derived_pair_counterexample :
    (examplePass.runOnFunction Layout.canonical (exampleSE selectOfSp) selectOfSp).sp_arg_ =
        some ⟨1⟩ ∧
      Derived selectOfSp ⟨1⟩ (.arg ⟨1⟩) ∧ Derived selectOfSp ⟨1⟩ (.inst 0) ∧
      (examplePass.runOnFunction Layout.canonical (exampleSE selectOfSp) selectOfSp).alias
        exampleIsPointerTy (fun _ _ => AliasResult.MustAlias) ⟨.arg ⟨1⟩, 8⟩ ⟨.inst 0, 8⟩ ≠
          (fun _ _ => AliasResult.MustAlias) (⟨.arg ⟨1⟩, 8⟩ : Location)
            (⟨.inst 0, 8⟩ : Location) ∧
      (examplePass.runOnFunction Layout.canonical (exampleSE selectOfSp) selectOfSp).alias
        exampleIsPointerTy (fun _ _ => AliasResult.MustAlias) ⟨.arg ⟨1⟩, 8⟩ ⟨.inst 0, 8⟩ =
          AliasResult.NoAlias := by
  have hsel : selectOfSp.body[0]? = some (.select (.const 0) (.arg ⟨1⟩) (.arg ⟨0⟩)) := rfl
  have hno : (examplePass.runOnFunction Layout.canonical (exampleSE selectOfSp)
      selectOfSp).alias exampleIsPointerTy (fun _ _ => AliasResult.MustAlias) ⟨.arg ⟨1⟩, 8⟩
        ⟨.inst 0, 8⟩ = AliasResult.NoAlias := by
    rw [alias_of_some selectOfSp_cached, runOnFunction_scev, if_pos]
    decide
  refine ⟨selectOfSp_cached, Derived.candidate, Derived.selectTrue hsel Derived.candidate,
    ?_, hno⟩
  rw [hno]
  decide

/-- C13, amended: when the Sp argument `D` is cached after `runOnFunction(F)`
and the two locations are both derived from `D`, `alias` returns the
delegate's answer if the two resolved bases both equal `D` or both differ from
`D`, and returns `NoAlias` if exactly one of them equals `D`. -/
theorem alias_of_derived_pair (this : GHCAliasAnalysis) (H : Layout) (SE : Value → SCEV)
    (F : Function) (D : Argument) (isPointerTy : SCEV → Bool)
    (AA : Location → Location → AliasResult) (L1 L2 : Location)
    (hD : (this.runOnFunction H SE F).sp_arg_ = some D)
    (_h1 : Derived F D L1.Ptr) (_h2 : Derived F D L2.Ptr) :
    ((GetUnderlyingArgumentSCEV isPointerTy (SE L1.Ptr) = some D ↔
          GetUnderlyingArgumentSCEV isPointerTy (SE L2.Ptr) = some D) →
        (this.runOnFunction H SE F).alias isPointerTy AA L1 L2 = AA L1 L2) ∧
      ((GetUnderlyingArgumentSCEV isPointerTy (SE L1.Ptr) = some D ↔
          ¬ GetUnderlyingArgumentSCEV isPointerTy (SE L2.Ptr) = some D) →
        (this.runOnFunction H SE F).alias isPointerTy AA L1 L2 = AliasResult.NoAlias) := by
  rw [alias_of_some hD, runOnFunction_scev]
  constructor
  · intro h
    rw [if_neg]
    tauto
  · intro h
    rw [if_pos h]

/-- C13, amended, at scenario 1: `Sp+0` and `Sp+8` are both derived from Sp,
both resolve to Sp, and the delegate's `MustAlias` is returned. -/
theorem alias_of_derived_pair_witness :
    (examplePass.runOnFunction Layout.canonical (exampleSE scenario1) scenario1).sp_arg_ =
        some ⟨1⟩ ∧
      Derived scenario1 ⟨1⟩ (.inst 0) ∧ Derived scenario1 ⟨1⟩ (.inst 2) ∧
      (examplePass.runOnFunction Layout.canonical (exampleSE scenario1) scenario1).alias
        exampleIsPointerTy (fun _ _ => AliasResult.MustAlias) ⟨.inst 0, 8⟩ ⟨.inst 2, 8⟩ =
          AliasResult.MustAlias :=
  have h0 : scenario1.body[0]? = some (.gep (.arg ⟨1⟩) [.const 0]) := rfl
  have h2 : scenario1.body[2]? = some (.gep (.arg ⟨1⟩) [.const 8]) := rfl
  have d0 : Derived scenario1 ⟨1⟩ (.inst 0) := Derived.gep h0 Derived.candidate
  have d2 : Derived scenario1 ⟨1⟩ (.inst 2) := Derived.gep h2 Derived.candidate
  ⟨scenario1_cached, d0, d2,
   (alias_of_derived_pair examplePass Layout.canonical (exampleSE scenario1) scenario1 ⟨1⟩
     exampleIsPointerTy (fun _ _ => AliasResult.MustAlias) ⟨.inst 0, 8⟩ ⟨.inst 2, 8⟩
     scenario1_cached d0 d2).1 (by decide)⟩

/-- C15, at the failing input: in every state a run reaches from the initial
state `SpPointers` is `{Sp}`.  In scenario 1 the loop exits in the state with
`SpPointers = {Sp}` and an empty work list, although instruction 0, a GEP of
Sp, is derived from Sp: the final set is not closed under the taint rule. -/
theorem SpPointers_final_misses_derived :
    (∀ (H : Layout) (F : Function) (sp_arg : Argument) (t : LoopState),
        Reaches H F (initState H F sp_arg) t → t.SpPointers = [Value.arg sp_arg]) ∧
      SPEscapes Layout.canonical scenario1 ⟨1⟩ = false ∧
      Relation.ReflTransGen (ExecStep Layout.canonical scenario1)
        (initState Layout.canonical scenario1 ⟨1⟩) ⟨[.arg ⟨1⟩], []⟩ ∧
      Derived scenario1 ⟨1⟩ (.inst 0) ∧
      Value.inst 0 ∉ [Value.arg ⟨1⟩] := by
  refine ⟨fun H F sp_arg t hr => (reaches_init hr).1, SPEscapes_eq_false _ _ _, ?_, ?_, ?_⟩
  · exact Relation.ReflTransGen.single ⟨.arg ⟨1⟩, by decide, by decide⟩
  · have h0 : scenario1.body[0]? = some (.gep (.arg ⟨1⟩) [.const 0]) := rfl
    exact Derived.gep h0 Derived.candidate
  · decide

/-- C16, at the failing input: when the candidate has a use, the work list
built by lines 85-86 holds the candidate itself (the value
`cast<Instruction>(*UI)` gives), which line 81 has put into `SpPointers`; in
scenario 1 the initial state is `SpPointers = {Sp}`, work list `{Sp}`, and the
invariant of line 79 does not hold. -/
theorem workList_meets_SpPointers_initially :
    (∀ (H : Layout) (F : Function) (sp_arg : Argument), F.uses (Value.arg sp_arg) ≠ [] →
        Value.arg sp_arg ∈ (initState H F sp_arg).WorkList ∧
          Value.arg sp_arg ∈ (initState H F sp_arg).SpPointers) ∧
      initState Layout.canonical scenario1 ⟨1⟩ = ⟨[.arg ⟨1⟩], [.arg ⟨1⟩]⟩ ∧
      ¬ (initState Layout.canonical scenario1 ⟨1⟩).Disjoint := by
  have hgen : ∀ (H : Layout) (F : Function) (sp_arg : Argument),
      F.uses (Value.arg sp_arg) ≠ [] →
        Value.arg sp_arg ∈ (initState H F sp_arg).WorkList ∧
          Value.arg sp_arg ∈ (initState H F sp_arg).SpPointers := by
    intro H F sp_arg hu
    rw [initState_workList, initState_SpPointers,
      if_neg (fun h => hu ((useList_eq_nil_iff H F _).mp h))]
    exact ⟨List.mem_singleton.mpr rfl, List.mem_singleton.mpr rfl⟩
  refine ⟨hgen, by decide, fun hd => ?_⟩
  have h := hgen Layout.canonical scenario1 ⟨1⟩ (by decide)
  exact hd _ h.1 h.2

/-- C17: in every state a run reaches, a member of `SpPointers` is the
candidate argument or an instruction of kind GEP, select, phi, binary operator
or cast; an instruction of any other kind (store, load, call, ...) is not a
member, whatever its operands are. -/
theorem SpPointers_only_sp_pointer_kinds (H : Layout) (F : Function) (sp_arg : Argument)
    (t : LoopState) (hr : Reaches H F (initState H F sp_arg) t) :
    (∀ V ∈ t.SpPointers, V = Value.arg sp_arg ∨
        ∃ (i : Nat) (ins : Instruction),
          V = Value.inst i ∧ F.body[i]? = some ins ∧ ins.isSpPointerKind = true) ∧
      ∀ (i : Nat) (ins : Instruction), F.body[i]? = some ins → ins.isSpPointerKind = false →
        Value.inst i ∉ t.SpPointers := by
  have hs : Sound F sp_arg t := reaches_sound hr (initState_sound H F sp_arg)
  refine ⟨fun V hV => derived_kind (hs V hV), ?_⟩
  intro i ins hi hk hin
  rcases derived_kind (hs _ hin) with h | ⟨j, ins2, hj, hi2, hk2⟩
  · cases h
  · cases hj
    rw [hi] at hi2
    cases hi2
    rw [hk] at hk2
    cases hk2

/-- C17, at `loadThenStore`: the load of Sp is processed and not recorded, the
loop exits with `SpPointers = {Sp}`, and the store of the loaded value is not
reported as an escape. -/
theorem SpPointers_only_sp_pointer_kinds_witness :
    Reaches Layout.canonical loadThenStore (initState Layout.canonical loadThenStore ⟨1⟩)
        ⟨[.arg ⟨1⟩], []⟩ ∧
      Value.inst 0 ∉ [Value.arg ⟨1⟩] ∧
      SPEscapes Layout.canonical loadThenStore ⟨1⟩ = false :=
  have hr : Reaches Layout.canonical loadThenStore
      (initState Layout.canonical loadThenStore ⟨1⟩) ⟨[.arg ⟨1⟩], []⟩ :=
    Relation.ReflTransGen.single ⟨.arg ⟨1⟩, by decide, by decide⟩
  ⟨hr,
   (SpPointers_only_sp_pointer_kinds Layout.canonical loadThenStore ⟨1⟩ _ hr).2 0
     (.other [.arg ⟨1⟩]) rfl rfl,
   SPEscapes_of_loopFuel (n := 5) (by decide)⟩

/-- C18: `SpPointers` only grows along a run: every member of the set in a
state is a member in every state reached from it, in particular in the state
in which the loop exits. -/
theorem SpPointers_monotone (H : Layout) (F : Function) (s t : LoopState)
    (hr : Reaches H F s t) (V : Value) (hV : V ∈ s.SpPointers) : V ∈ t.SpPointers :=
  reaches_subset hr hV

/-- C18, at scenario 1: from the state with `SpPointers = {Sp}` and work list
`{0}` the iteration for instruction 0, a GEP of Sp, records it; Sp is in the
set before and after. -/
theorem SpPointers_monotone_witness :
    Reaches Layout.canonical scenario1 ⟨[.arg ⟨1⟩], [.inst 0]⟩ ⟨[.inst 0, .arg ⟨1⟩], []⟩ ∧
      Value.arg ⟨1⟩ ∈ [Value.arg ⟨1⟩] ∧
      Value.arg ⟨1⟩ ∈ [Value.inst 0, Value.arg ⟨1⟩] :=
  have hr : Reaches Layout.canonical scenario1 ⟨[.arg ⟨1⟩], [.inst 0]⟩
      ⟨[.inst 0, .arg ⟨1⟩], []⟩ :=
    Relation.ReflTransGen.single ⟨.inst 0, by decide, by decide⟩
  have hV : Value.arg ⟨1⟩ ∈ [Value.arg ⟨1⟩] := by decide
  ⟨hr, hV, SpPointers_monotone Layout.canonical scenario1 _ _ hr _ hV⟩

/-- C19: the decision of `alias` is symmetric in its two locations: it returns
`NoAlias` for `(L1, L2)` whatever the delegate answers if and only if it does
so for `(L2, L1)`, and when it does not, both queries return the delegate's
answer for their own pair. -/
theorem alias_symmetric (this : GHCAliasAnalysis) (isPointerTy : SCEV → Bool)
    (L1 L2 : Location) :
    ((∀ AA : Location → Location → AliasResult,
          this.alias isPointerTy AA L1 L2 = AliasResult.NoAlias) ↔
        ∀ AA : Location → Location → AliasResult,
          this.alias isPointerTy AA L2 L1 = AliasResult.NoAlias) ∧
      ((∀ AA : Location → Location → AliasResult,
          this.alias isPointerTy AA L1 L2 = AliasResult.NoAlias) ∨
        ∀ AA : Location → Location → AliasResult,
          this.alias isPointerTy AA L1 L2 = AA L1 L2 ∧
            this.alias isPointerTy AA L2 L1 = AA L2 L1) := by
  rcases alias_both_orders this isPointerTy L1 L2 with h | h
  · exact ⟨⟨fun _ AA => (h AA).2, fun _ AA => (h AA).1⟩, Or.inl fun AA => (h AA).1⟩
  · refine ⟨⟨fun h1 => ?_, fun h2 => ?_⟩, Or.inr h⟩
    · have e := h1 (fun _ _ => AliasResult.MayAlias)
      rw [(h _).1] at e
      cases e
    · have e := h2 (fun _ _ => AliasResult.MayAlias)
      rw [(h _).2] at e
      cases e

/-- C20: the argument cached by `runOnFunction(G)` does not depend on the state
of the pass object before the call, in particular not on a function `F`
analysed earlier; a function that does not use the GHC convention, or has
fewer than two arguments, leaves no cached argument. -/
theorem runOnFunction_forgets_previous (this this2 : GHCAliasAnalysis) (H H1 H2 : Layout)
    (SE SE1 SE2 : Value → SCEV) (F G : Function) :
    ((this.runOnFunction H SE F).runOnFunction H1 SE1 G).sp_arg_ =
        (this2.runOnFunction H2 SE2 G).sp_arg_ ∧
      (G.CallingConv ≠ CallingConv.GHC ∨ G.NumArgs < 2 →
        ((this.runOnFunction H SE F).runOnFunction H1 SE1 G).sp_arg_ = none) := by
  refine ⟨runOnFunction_sp_arg_layout _ _ H1 H2 SE1 SE2 G, fun h => ?_⟩
  rw [runOnFunction_sp_arg, if_neg]
  rintro ⟨hcc, hn, _⟩
  rcases h with h | h
  · exact h hcc
  · omega

/-- C20, at scenario 1 followed by a function with the C calling convention:
the argument cached for scenario 1 is cleared. -/
theorem runOnFunction_forgets_previous_witness :
    (examplePass.runOnFunction Layout.canonical (exampleSE scenario1) scenario1).sp_arg_ =
        some ⟨1⟩ ∧
      ((examplePass.runOnFunction Layout.canonical (exampleSE scenario1)
        scenario1).runOnFunction Layout.canonical (exampleSE notGHC) notGHC).sp_arg_ = none :=
  ⟨scenario1_cached,
   (runOnFunction_forgets_previous examplePass examplePass Layout.canonical Layout.canonical
     Layout.canonical (exampleSE scenario1) (exampleSE notGHC) (exampleSE notGHC) scenario1
     notGHC).2 (Or.inl (by decide))⟩

end GhcAA
